import Mathlib

/-!
Verification of the lambda-calculus tokenizer, scope-resolving parser and
pretty printer of the Lambda.rs repository (files src/tokenizer.rs,
src/parser.rs, src/pretty_printer.rs).

The Rust code is embedded shallowly:

* characters are Lean `Char`, strings are Lean `String`, the tokenizer works
  on the `List Char` of the input string (a Rust `Peekable<Chars>` iterator
  is the list of characters not yet consumed);
* Rust panics are modelled as `Except`-style error results that carry the
  state at the moment of the panic, so that statements about the state left
  behind by a failing parse can be made;
* the recursive-descent parser threads an explicit state (remaining tokens,
  binder stack `env`, free-variable table `freevar`) and is driven by a fuel
  parameter; the top-level `parse` supplies `tokens.length + 1` fuel, which
  is more than any token list can consume, since every recursive descent
  step consumes at least one token;
* the pretty printer returns `Option String`, `none` modelling an
  out-of-bounds indexing panic (`free[freepos]` / `self.env[bindpos]`).
-/

namespace LambdaRs

/-- Tokens of the surface syntax, from src/tokenizer.rs (enum Token). -/
inductive Token where
  | Var : String → Token
  | Lambda : Token
  | Dot : Token
  | LBrace : Token
  | RBrace : Token
  | Bra : Token
  | Delim : Token
  | Ket : Token
deriving DecidableEq

/-- Rust `c.is_ascii_alphabetic() || c == '_'` (fn ident_start). -/
def ident_start (c : Char) : Bool := c.isAlpha || c = '_'

/-- Rust `c.is_ascii_alphanumeric() || c == '_'` (fn ident_body). -/
def ident_body (c : Char) : Bool := c.isAlphanum || c = '_'

/-- Rust `char::is_whitespace`: the Unicode White_Space code points. -/
def isWhitespaceRust (c : Char) : Bool :=
  c.toNat = 9 || c.toNat = 10 || c.toNat = 11 || c.toNat = 12 || c.toNat = 13 ||
  c.toNat = 32 || c.toNat = 133 || c.toNat = 160 || c.toNat = 5760 ||
  (8192 ≤ c.toNat && c.toNat ≤ 8202) || c.toNat = 8232 || c.toNat = 8233 ||
  c.toNat = 8239 || c.toNat = 8287 || c.toNat = 12288

/-- The whitespace-skipping loop `while iter.next_if(|c| c.is_whitespace())`
at the top of consume_token. -/
def skipWs : List Char → List Char
  | [] => []
  | c :: cs => if isWhitespaceRust c then skipWs cs else c :: cs

/-- The maximal-munch loop `while let Some(chr) = iter.next_if(|&c| ident_body(c))`
of consume_identifier: the characters munched and the remaining input. -/
def takeIdent : List Char → List Char × List Char
  | [] => ([], [])
  | c :: cs =>
    if ident_body c then (c :: (takeIdent cs).1, (takeIdent cs).2)
    else ([], c :: cs)

/-- Rust fn consume_identifier: chr1 is already consumed, the identifier body
is munched from the remaining input. -/
def consume_identifier (cs : List Char) (chr1 : Char) : Token × List Char :=
  (Token.Var (String.mk (chr1 :: (takeIdent cs).1)), (takeIdent cs).2)

/-- Rust fn consume_token: skip whitespace, then dispatch on the next
character (`iter.next().unwrap_or_default()` turns end of input into '\x00',
and the '\x00' arm returns None, stopping tokenization).  An unknown
character panics, modelled as `.error c`. -/
def consume_token (cs : List Char) : Except Char (Option Token × List Char) :=
  match skipWs cs with
  | [] => .ok (none, [])
  | c :: rest =>
    if c = '\\' then .ok (some Token.Lambda, rest)
    else if c = '.' then .ok (some Token.Dot, rest)
    else if c = '\x7b' then .ok (some Token.LBrace, rest)
    else if c = '\x7d' then .ok (some Token.RBrace, rest)
    else if c = '<' then .ok (some Token.Bra, rest)
    else if c = '|' then .ok (some Token.Delim, rest)
    else if c = '>' then .ok (some Token.Ket, rest)
    else if ident_start c then
      .ok (some (consume_identifier rest c).1, (consume_identifier rest c).2)
    else if c = '\x00' then .ok (none, rest)
    else .error c

/-- The `while let Some(token) = consume_token(&mut iter)` loop of
Rust fn tokenize, over the not-yet-consumed characters. -/
def tokenize_chars (cs : List Char) : Except Char (List Token) :=
  match h : consume_token cs with
  | .error c => .error c
  | .ok (none, _) => .ok []
  | .ok (some t, rest) =>
    match tokenize_chars rest with
    | .error c => .error c
    | .ok ts => .ok (t :: ts)
termination_by cs.length
decreasing_by
  have hsk : ∀ l : List Char, (skipWs l).length ≤ l.length := by
    intro l
    induction l with
    | nil => simp [skipWs]
    | cons c cs ih =>
      simp only [skipWs]
      split
      · exact Nat.le_trans ih (Nat.le_succ _)
      · exact Nat.le_refl _
  have htk : ∀ l : List Char, (takeIdent l).2.length ≤ l.length := by
    intro l
    induction l with
    | nil => simp [takeIdent]
    | cons c cs ih =>
      simp only [takeIdent]
      split
      · exact Nat.le_trans ih (Nat.le_succ _)
      · exact Nat.le_refl _
  rcases hw : skipWs cs with _ | ⟨c, tl⟩
  · rw [consume_token, hw] at h
    simp at h
  · rw [consume_token, hw] at h
    have hlen : tl.length + 1 ≤ cs.length := by
      have := hsk cs
      rw [hw] at this
      simpa using this
    simp only [] at h
    split_ifs at h
    all_goals simp_all [consume_identifier]
    all_goals try omega
    all_goals (have h2 := htk tl; rw [← h.2]; omega)

/-- Rust fn tokenize (src/tokenizer.rs). -/
def tokenize (s : String) : Except Char (List Token) := tokenize_chars s.data

/-- Terms, from src/parser.rs (enum Term): a signed variable index (negative
for free variables), lambda with retained parameter name, application. -/
inductive Term where
  | Variable : Int → Term
  | Lambda : String → Term → Term
  | Application : Term → Term → Term
deriving DecidableEq

/-- The mutable state of struct Parser: remaining token iterator, binder
stack `env`, free-variable table `freevar`. -/
structure PState where
  toks : List Token
  env : List String
  freevar : List String
deriving DecidableEq

/-- Result of a parsing step: success with a value and the updated state, or
a panic message together with the state at the moment of the panic. -/
inductive PResult (α : Type) where
  | ok : α → PState → PResult α
  | err : String → PState → PResult α
deriving DecidableEq

/-- Sequencing of parsing steps: a panic aborts everything after it,
propagating the panic-time state unchanged. -/
def pbind (r : PResult α) (f : α → PState → PResult β) : PResult β :=
  match r with
  | .ok a s => f a s
  | .err m s => .err m s

/-- Rust fn Parser::expect_token: `self.iter.next()` consumes one token and
the panic fires unless it equals the expected token. -/
def expect_token (s : PState) (expected : Token) (msg : String) : PResult Unit :=
  match s.toks with
  | t :: rest =>
    if t = expected then .ok () ⟨rest, s.env, s.freevar⟩
    else .err msg ⟨rest, s.env, s.freevar⟩
  | [] => .err msg s

/-- Rust fn Parser::expect_ident: `self.iter.next()` must yield a Var token. -/
def expect_ident (s : PState) : PResult String :=
  match s.toks with
  | Token.Var name :: rest => .ok name ⟨rest, s.env, s.freevar⟩
  | _ :: rest => .err "Expected identifier" ⟨rest, s.env, s.freevar⟩
  | [] => .err "Expected identifier" s

/-- Rust `Iterator::rposition`: index (counted from the front) of the last
element satisfying the predicate. -/
def rposition (p : α → Bool) : List α → Option Nat
  | [] => none
  | a :: as =>
    match rposition p as with
    | some i => some (i + 1)
    | none => if p a then some 0 else none

/-- Rust fn Parser::parse_var: resolve the identifier against the binder
stack via rposition (depth = env.len() - idx), else push it onto the
free-variable table and store the negated new table length. -/
def parse_var (s : PState) : PResult Term :=
  pbind (expect_ident s) fun ident s1 =>
    match rposition (fun name => name == ident) s1.env with
    | some idx => .ok (Term.Variable (Int.ofNat (s1.env.length - idx))) s1
    | none =>
      .ok (Term.Variable (-(Int.ofNat (s1.freevar ++ [ident]).length)))
        ⟨s1.toks, s1.env, s1.freevar ++ [ident]⟩

/-- Rust fn Parser::parse_lambda, parameterized by the term parser used for
the body: consume '\\', read the parameter, expect '.' and the open brace,
push the parameter on env, parse the body, expect the closing brace, pop. -/
def parse_lambda (pt : PState → PResult Term) (s : PState) : PResult Term :=
  pbind (expect_ident ⟨s.toks.tail, s.env, s.freevar⟩) fun param s1 =>
  pbind (expect_token s1 Token.Dot "Expected '.' after variable in lambda") fun _ s2 =>
  pbind (expect_token s2 Token.LBrace "Expected '\x7b' after '.' in lambda") fun _ s3 =>
  pbind (pt ⟨s3.toks, s3.env ++ [param], s3.freevar⟩) fun body s5 =>
  pbind (expect_token s5 Token.RBrace "Expected '\x7d' after lambda body") fun _ s6 =>
  .ok (Term.Lambda param body) ⟨s6.toks, s6.env.dropLast, s6.freevar⟩

/-- Rust fn Parser::parse_application, parameterized by the term parser for
the two sides: consume '<', parse lhs, expect '|', parse rhs, expect '>'. -/
def parse_application (pt : PState → PResult Term) (s : PState) : PResult Term :=
  pbind (pt ⟨s.toks.tail, s.env, s.freevar⟩) fun lhs s1 =>
  match s1.toks with
  | Token.Delim :: rest =>
    pbind (pt ⟨rest, s1.env, s1.freevar⟩) fun rhs s2 =>
      (match s2.toks with
       | Token.Ket :: rest2 => .ok (Term.Application lhs rhs) ⟨rest2, s2.env, s2.freevar⟩
       | _ :: rest2 => .err "Expected '>' after application" ⟨rest2, s2.env, s2.freevar⟩
       | [] => .err "Expected '>' after application" s2)
  | _ :: rest => .err "Expected delimiter '|' in application" ⟨rest, s1.env, s1.freevar⟩
  | [] => .err "Expected delimiter '|' in application" s1

/-- Rust fn Parser::parse_term: peek the next token and dispatch.  The fuel
argument only bounds the recursion depth; `parse` supplies enough fuel that
the zero case is never reached. -/
def parse_term : Nat → PState → PResult Term
  | 0, s => .err "fuel exhausted" s
  | fuel + 1, s =>
    match s.toks with
    | Token.Var _ :: _ => parse_var s
    | Token.Lambda :: _ => parse_lambda (fun s1 => parse_term fuel s1) s
    | Token.Bra :: _ => parse_application (fun s1 => parse_term fuel s1) s
    | _ => .err "Unexpected token" s

/-- Rust fn Parser::parse: parse a term from the token list (initially empty
env and freevar) and return it with the free-variable table. -/
def parse (tokens : List Token) : PResult (Term × List String) :=
  match parse_term (tokens.length + 1) ⟨tokens, [], []⟩ with
  | .ok t s1 => .ok (t, s1.freevar) s1
  | .err m s1 => .err m s1

/-- Rust const MAXLEN of src/pretty_printer.rs. -/
def MAXLEN : Nat := 10

/-- Rust `String::len` counts UTF-8 bytes. -/
def rustLen (s : String) : Nat := s.utf8ByteSize

/-- Rust `s.starts_with('(')`: the first character is '('. -/
def starts_paren (s : String) : Bool :=
  match s.data with
  | [] => false
  | c :: _ => c = '('

/-- Rust `s.ends_with(')')`: the last character is ')'. -/
def ends_paren (s : String) : Bool :=
  match s.data.getLast? with
  | some c => c = ')'
  | none => false

/-- Rust fn PrettyPrinter::addparen: wrap in parentheses unless the string
already starts with '(' and ends with ')'. -/
def addparen (s : String) : String :=
  if starts_paren s && ends_paren s then s else "(" ++ s ++ ")"

/-- Rust fn PrettyPrinter::print_var: negative index into the free table
(printed with a '$' marker), positive index into the binder stack at
`env.len() - index`.  `none` models the out-of-bounds panic. -/
def print_var (env : List String) (index : Int) (free : List String) : Option String :=
  if index < 0 then
    (free.get? (-(index + 1)).toNat).map (fun name => "$" ++ name)
  else
    if index.toNat ≤ env.length then env.get? (env.length - index.toNat)
    else none

/-- Rust fn PrettyPrinter::print_term and its helpers print_lambda and
print_application: the env stack grows by the parameter name around the
body of a lambda; a lambda body and an application lhs are wrapped via
addparen only when longer than MAXLEN bytes, an application rhs always. -/
def print_term (env free : List String) : Term → Option String
  | Term.Variable index => print_var env index free
  | Term.Lambda param body =>
    (print_term (env ++ [param]) free body).map fun body_str =>
      "λ" ++ param ++ ". " ++
        (if rustLen body_str > MAXLEN then addparen body_str else body_str)
  | Term.Application lhs rhs =>
    (print_term env free lhs).bind fun lhs_str =>
    (print_term env free rhs).map fun rhs_str =>
      (if rustLen lhs_str > MAXLEN then addparen lhs_str else lhs_str) ++ addparen rhs_str

/-- Rust fn PrettyPrinter::format: print with an initially empty binder
stack. -/
def format (term : Term) (free : List String) : Option String :=
  print_term [] free term

/-- The seven punctuation marks of the surface grammar, as dispatched on by
consume_token. -/
def punct_char (c : Char) : Bool :=
  c = '\\' || c = '.' || c = '\x7b' || c = '\x7d' || c = '<' || c = '|' || c = '>'

/-- Well-scopedness of a term under `d` enclosing binders and an `n`-entry
free-variable table: positive indices lie in 1..d, negative indices denote a
slot below n.  This is the invariant the parser establishes and the printer
relies on. -/
def wf : Term → Nat → Nat → Prop
  | Term.Variable k, d, n => (0 < k ∧ k.toNat ≤ d) ∨ (k < 0 ∧ (-(k + 1)).toNat < n)
  | Term.Lambda _ body, d, n => wf body (d + 1) n
  | Term.Application lhs rhs, d, n => wf lhs d n ∧ wf rhs d n

/-! Tokenizer lemmas. -/

theorem skipWs_length (l : List Char) : (skipWs l).length ≤ l.length := by
  induction l with
  | nil => simp [skipWs]
  | cons c cs ih =>
    simp only [skipWs]
    split
    · exact Nat.le_trans ih (Nat.le_succ _)
    · exact Nat.le_refl _

theorem skipWs_subset {l : List Char} {a : Char} (h : a ∈ skipWs l) : a ∈ l := by
  induction l with
  | nil => simpa [skipWs] using h
  | cons c cs ih =>
    simp only [skipWs] at h
    split at h
    · exact List.mem_cons_of_mem _ (ih h)
    · exact h

theorem takeIdent_length (l : List Char) : (takeIdent l).2.length ≤ l.length := by
  induction l with
  | nil => simp [takeIdent]
  | cons c cs ih =>
    simp only [takeIdent]
    split
    · exact Nat.le_trans ih (Nat.le_succ _)
    · exact Nat.le_refl _

theorem takeIdent_subset {l : List Char} {a : Char} (h : a ∈ (takeIdent l).2) : a ∈ l := by
  induction l with
  | nil => simpa [takeIdent] using h
  | cons c cs ih =>
    simp only [takeIdent] at h
    split at h
    · exact List.mem_cons_of_mem _ (ih h)
    · exact h

theorem skipWs_append_nil {xs : List Char} (h : skipWs xs = []) (ys : List Char) :
    skipWs (xs ++ ys) = skipWs ys := by
  induction xs with
  | nil => simp
  | cons c cs ih =>
    simp only [skipWs] at h ⊢
    split at h
    · rename_i hws
      simp only [List.cons_append, skipWs, hws, if_true]
      exact ih h
    · exact absurd h (by simp)

theorem skipWs_append_cons {xs : List Char} {c : Char} {tl : List Char}
    (h : skipWs xs = c :: tl) (ys : List Char) :
    skipWs (xs ++ ys) = c :: (tl ++ ys) := by
  induction xs with
  | nil => simp [skipWs] at h
  | cons d ds ih =>
    simp only [skipWs] at h
    split at h
    · rename_i hws
      simp only [List.cons_append, skipWs, hws, if_true]
      exact ih h
    · rename_i hws
      obtain ⟨rfl, rfl⟩ : d = c ∧ ds = tl := by
        constructor <;> [exact (List.cons.injEq _ _ _ _ ▸ h).1; exact (List.cons.injEq _ _ _ _ ▸ h).2]
      simp [List.cons_append, skipWs, hws]

theorem skipWs_cons_not_ws {c : Char} {ys : List Char} (h : isWhitespaceRust c = false) :
    skipWs (c :: ys) = c :: ys := by
  simp [skipWs, h]

theorem takeIdent_append {z : Char} (hz : ident_body z = false) (u v : List Char) :
    takeIdent (u ++ z :: v) = ((takeIdent u).1, (takeIdent u).2 ++ z :: v) := by
  induction u with
  | nil => simp [takeIdent, hz]
  | cons c cs ih =>
    simp only [List.cons_append, takeIdent]
    split
    · simp [ih]
    · simp

theorem tokenize_chars_eq_error {cs : List Char} {c : Char}
    (h : consume_token cs = .error c) : tokenize_chars cs = .error c := by
  rw [tokenize_chars]
  split
  · rename_i c2 heq
    rw [h] at heq
    cases heq
    rfl
  · rename_i r heq
    rw [h] at heq
    cases heq
  · rename_i t r heq
    rw [h] at heq
    cases heq

theorem tokenize_chars_eq_none {cs : List Char} {r : List Char}
    (h : consume_token cs = .ok (none, r)) : tokenize_chars cs = .ok [] := by
  rw [tokenize_chars]
  split
  · rename_i c2 heq
    rw [h] at heq
    cases heq
  · rfl
  · rename_i t r2 heq
    rw [h] at heq
    cases heq

theorem tokenize_chars_eq_some {cs : List Char} {t : Token} {r : List Char}
    (h : consume_token cs = .ok (some t, r)) :
    tokenize_chars cs =
      match tokenize_chars r with
      | .error c => .error c
      | .ok ts => .ok (t :: ts) := by
  rw [tokenize_chars]
  split
  · rename_i c2 heq
    rw [h] at heq
    cases heq
  · rename_i r2 heq
    rw [h] at heq
    cases heq
  · rename_i t2 r2 heq
    rw [h] at heq
    cases heq
    rfl

theorem consume_token_some_facts {cs : List Char} {t : Token} {r : List Char}
    (h : consume_token cs = .ok (some t, r)) :
    r.length < cs.length ∧ ∀ a ∈ r, a ∈ cs := by
  rcases hw : skipWs cs with _ | ⟨c, tl⟩
  · rw [consume_token, hw] at h
    cases h
  · rw [consume_token, hw] at h
    have hlen : tl.length + 1 ≤ cs.length := by
      have := skipWs_length cs
      rw [hw] at this
      simpa using this
    have hmem : ∀ a ∈ tl, a ∈ cs := by
      intro a ha
      exact skipWs_subset (hw ▸ List.mem_cons_of_mem _ ha)
    have htk := takeIdent_length tl
    simp only [] at h
    split_ifs at h with h1 h2 h3 h4 h5 h6 h7 h8 h9
    all_goals injection h with hxy
    all_goals rw [Prod.mk.injEq] at hxy
    all_goals obtain ⟨ha, hb⟩ := hxy
    all_goals try cases ha
    all_goals subst hb
    all_goals try simp only [consume_identifier]
    all_goals refine ⟨?_, ?_⟩
    all_goals
      first
      | omega
      | exact hmem
      | exact fun a ha => hmem a (takeIdent_subset ha)

theorem consume_token_append_eq {xs : List Char} {z : Char} (ys : List Char)
    (hz1 : isWhitespaceRust z = false) (hz2 : ident_body z = false)
    (hnul : '\x00' ∉ xs) :
    consume_token (xs ++ z :: ys) =
      match consume_token xs with
      | .error e => .error e
      | .ok (some t, r) => .ok (some t, r ++ z :: ys)
      | .ok (none, _) => consume_token (z :: ys) := by
  rcases hw : skipWs xs with _ | ⟨c, tl⟩
  · have h1 : consume_token xs = .ok (none, []) := by rw [consume_token, hw]
    rw [h1]
    rw [consume_token, skipWs_append_nil hw, consume_token]
  · have hc : c ∈ xs := skipWs_subset (hw ▸ List.mem_cons_self _ _)
    have hc0 : ¬c = '\x00' := fun h => hnul (h ▸ hc)
    have happ := skipWs_append_cons hw (z :: ys)
    conv_rhs => rw [consume_token, hw]
    rw [consume_token, happ]
    simp only []
    split_ifs
    all_goals simp_all [consume_identifier, takeIdent_append hz2]

theorem consume_token_head_none {ys : List Char} :
    consume_token ('\x00' :: ys) = .ok (none, ys) := by
  rw [consume_token, skipWs_cons_not_ws (by decide)]
  simp [show ident_start '\x00' = false from by decide]

theorem ident_start_body {c : Char} (h : ident_start c = true) : ident_body c = true := by
  simp only [ident_start, Bool.or_eq_true] at h
  rcases h with h | h
  · simp [ident_body, Char.isAlphanum, h]
  · simp [ident_body, Char.isAlphanum, h]

theorem consume_token_head_bad {z : Char} {ys : List Char}
    (hz1 : isWhitespaceRust z = false) (hzp : punct_char z = false)
    (hz2 : ident_body z = false) (hz0 : z ≠ '\x00') :
    consume_token (z :: ys) = .error z := by
  have hzs : ident_start z = false := by
    rcases h : ident_start z
    · rfl
    · rw [ident_start_body h] at hz2
      cases hz2
  simp only [punct_char, Bool.or_eq_false_iff, decide_eq_false_iff_not] at hzp
  obtain ⟨⟨⟨⟨⟨⟨hp1, hp2⟩, hp3⟩, hp4⟩, hp5⟩, hp6⟩, hp7⟩ := hzp
  rw [consume_token, skipWs_cons_not_ws hz1]
  simp [hp1, hp2, hp3, hp4, hp5, hp6, hp7, hzs, hz0]

theorem tokenize_chars_nul_aux : ∀ n (xs : List Char), xs.length ≤ n → '\x00' ∉ xs →
    ∀ ys, tokenize_chars (xs ++ '\x00' :: ys) = tokenize_chars xs := by
  intro n
  induction n with
  | zero =>
    intro xs hlen hnul ys
    have hxs : xs = [] := List.length_eq_zero.mp (Nat.le_zero.mp hlen)
    subst hxs
    rw [List.nil_append, tokenize_chars_eq_none consume_token_head_none,
      tokenize_chars_eq_none (show consume_token [] = .ok (none, []) from rfl)]
  | succ n ih =>
    intro xs hlen hnul ys
    have key := @consume_token_append_eq xs '\x00' ys (by decide) (by decide) hnul
    rcases hct : consume_token xs with e | ⟨(_ | t), r⟩
    · rw [hct] at key
      rw [tokenize_chars_eq_error key, tokenize_chars_eq_error hct]
    · rw [hct] at key
      rw [tokenize_chars_eq_none (key.trans consume_token_head_none),
        tokenize_chars_eq_none hct]
    · rw [hct] at key
      have facts := consume_token_some_facts hct
      have hnul2 : '\x00' ∉ r := fun hm => hnul (facts.2 _ hm)
      rw [tokenize_chars_eq_some key, tokenize_chars_eq_some hct,
        ih r (by omega) hnul2 ys]

theorem tokenize_chars_nul {xs : List Char} (hnul : '\x00' ∉ xs) (ys : List Char) :
    tokenize_chars (xs ++ '\x00' :: ys) = tokenize_chars xs :=
  tokenize_chars_nul_aux xs.length xs le_rfl hnul ys

theorem tokenize_chars_bad_aux : ∀ n (xs : List Char), xs.length ≤ n → '\x00' ∉ xs →
    ∀ z ys, isWhitespaceRust z = false → punct_char z = false → ident_body z = false →
    z ≠ '\x00' → ∃ e, tokenize_chars (xs ++ z :: ys) = .error e := by
  intro n
  induction n with
  | zero =>
    intro xs hlen hnul z ys hz1 hzp hz2 hz0
    have hxs : xs = [] := List.length_eq_zero.mp (Nat.le_zero.mp hlen)
    subst hxs
    exact ⟨z, by rw [List.nil_append,
      tokenize_chars_eq_error (consume_token_head_bad hz1 hzp hz2 hz0)]⟩
  | succ n ih =>
    intro xs hlen hnul z ys hz1 hzp hz2 hz0
    have key := @consume_token_append_eq xs z ys hz1 hz2 hnul
    rcases hct : consume_token xs with e | ⟨(_ | t), r⟩
    · rw [hct] at key
      exact ⟨e, tokenize_chars_eq_error key⟩
    · rw [hct] at key
      exact ⟨z, tokenize_chars_eq_error
        (key.trans (consume_token_head_bad hz1 hzp hz2 hz0))⟩
    · rw [hct] at key
      have facts := consume_token_some_facts hct
      have hnul2 : '\x00' ∉ r := fun hm => hnul (facts.2 _ hm)
      obtain ⟨e, he⟩ := ih r (by omega) hnul2 z ys hz1 hzp hz2 hz0
      exact ⟨e, by rw [tokenize_chars_eq_some key, he]⟩

theorem tokenize_chars_bad {xs : List Char} (hnul : '\x00' ∉ xs) {z : Char} (ys : List Char)
    (hz1 : isWhitespaceRust z = false) (hzp : punct_char z = false)
    (hz2 : ident_body z = false) (hz0 : z ≠ '\x00') :
    ∃ e, tokenize_chars (xs ++ z :: ys) = .error e :=
  tokenize_chars_bad_aux xs.length xs le_rfl hnul z ys hz1 hzp hz2 hz0

/-! Parser lemmas. -/

theorem pbind_ok {α β : Type} {r : PResult α} {f : α → PState → PResult β}
    {t : β} {s1 : PState} :
    pbind r f = .ok t s1 ↔ ∃ a s2, r = .ok a s2 ∧ f a s2 = .ok t s1 := by
  cases r with
  | ok a s2 =>
    simp only [pbind]
    constructor
    · intro h
      exact ⟨a, s2, rfl, h⟩
    · rintro ⟨a2, s3, heq, h⟩
      cases heq
      exact h
  | err m s2 =>
    simp only [pbind]
    constructor
    · intro h
      cases h
    · rintro ⟨a2, s3, heq, h⟩
      cases heq

theorem expect_token_ok_iff {s : PState} {tk : Token} {msg : String} {u : Unit}
    {s1 : PState} :
    expect_token s tk msg = .ok u s1 ↔
      ∃ rest, s.toks = tk :: rest ∧ s1 = ⟨rest, s.env, s.freevar⟩ := by
  rcases s with ⟨toks, env, fv⟩
  cases toks with
  | nil =>
    simp only [expect_token]
    constructor
    · intro h
      cases h
    · rintro ⟨rest, h, _⟩
      cases h
  | cons a rest =>
    simp only [expect_token]
    split_ifs with heq
    · subst heq
      constructor
      · intro h
        cases h
        exact ⟨rest, rfl, rfl⟩
      · rintro ⟨rest2, h1, h2⟩
        cases h1
        cases h2
        rfl
    · constructor
      · intro h
        cases h
      · rintro ⟨rest2, h1, h2⟩
        exact absurd (List.cons.inj h1).1 heq

theorem expect_ident_ok_iff {s : PState} {name : String} {s1 : PState} :
    expect_ident s = .ok name s1 ↔
      ∃ rest, s.toks = Token.Var name :: rest ∧ s1 = ⟨rest, s.env, s.freevar⟩ := by
  rcases s with ⟨toks, env, fv⟩
  cases toks with
  | nil =>
    simp only [expect_ident]
    constructor
    · intro h
      cases h
    · rintro ⟨rest, h, _⟩
      cases h
  | cons a rest =>
    cases a
    case Var nm =>
      simp only [expect_ident]
      constructor
      · intro h
        cases h
        exact ⟨rest, rfl, rfl⟩
      · rintro ⟨rest2, h1, h2⟩
        cases h1
        cases h2
        rfl
    all_goals
      simp only [expect_ident]
      constructor
      · intro h
        cases h
      · rintro ⟨rest2, h1, h2⟩
        cases (List.cons.inj h1).1

theorem rposition_lt {α : Type} {p : α → Bool} : ∀ {l : List α} {i : Nat},
    rposition p l = some i → i < l.length := by
  intro l
  induction l with
  | nil => intro i h; cases h
  | cons a as ih =>
    intro i h
    simp only [rposition] at h
    rcases hr : rposition p as with _ | j
    · rw [hr] at h
      split_ifs at h with hp
      cases h
      simp
    · rw [hr] at h
      cases h
      have := ih hr
      simp only [List.length_cons]
      omega

theorem rposition_eq_none {α : Type} {p : α → Bool} : ∀ {l : List α},
    (∀ b ∈ l, p b = false) → rposition p l = none := by
  intro l
  induction l with
  | nil => intro _; rfl
  | cons a as ih =>
    intro h
    simp only [rposition]
    rw [ih fun b hb => h b (List.mem_cons_of_mem _ hb)]
    simp [h a (List.mem_cons_self _ _)]

theorem rposition_eq_topmost {α : Type} {p : α → Bool} : ∀ {l : List α} {i : Nat} {a : α},
    l.get? i = some a → p a = true →
    (∀ j b, i < j → l.get? j = some b → p b = false) →
    rposition p l = some i := by
  intro l
  induction l with
  | nil => intro i a h; cases h
  | cons x xs ih =>
    intro i a hget hp htop
    cases i with
    | zero =>
      obtain rfl : x = a := by simpa using hget
      have hnone : rposition p xs = none := by
        refine rposition_eq_none fun b hb => ?_
        obtain ⟨k, hk⟩ := List.mem_iff_get?.mp hb
        exact htop (k + 1) b (Nat.succ_pos _) (by simpa using hk)
      simp [rposition, hnone, hp]
    | succ k =>
      have hxs : rposition p xs = some k := by
        refine ih (by simpa using hget) hp ?_
        intro j b hj hget2
        exact htop (j + 1) b (by omega) (by simpa using hget2)
      simp [rposition, hxs]

theorem parse_var_ok_iff {s : PState} {t : Term} {s1 : PState} :
    parse_var s = .ok t s1 ↔
      ∃ name rest,
        s.toks = Token.Var name :: rest ∧
        ((∃ i, rposition (fun nm => nm == name) s.env = some i ∧
            t = Term.Variable (Int.ofNat (s.env.length - i)) ∧
            s1 = ⟨rest, s.env, s.freevar⟩) ∨
         (rposition (fun nm => nm == name) s.env = none ∧
            t = Term.Variable (-(Int.ofNat (s.freevar.length + 1))) ∧
            s1 = ⟨rest, s.env, s.freevar ++ [name]⟩)) := by
  simp only [parse_var, pbind_ok, expect_ident_ok_iff]
  constructor
  · rintro ⟨name, s2, ⟨rest, htoks, rfl⟩, h⟩
    refine ⟨name, rest, htoks, ?_⟩
    rcases hr : rposition (fun nm => nm == name) s.env with _ | i
    · rw [hr] at h
      cases h
      right
      refine ⟨rfl, ?_, rfl⟩
      simp
    · rw [hr] at h
      cases h
      left
      exact ⟨i, rfl, rfl, rfl⟩
  · rintro ⟨name, rest, htoks, h⟩
    refine ⟨name, ⟨rest, s.env, s.freevar⟩, ⟨rest, htoks, rfl⟩, ?_⟩
    rcases h with ⟨i, hr, rfl, rfl⟩ | ⟨hr, rfl, rfl⟩
    · rw [hr]
    · rw [hr]
      simp

theorem parse_lambda_ok_iff {pt : PState → PResult Term} {s : PState} {t : Term}
    {s1 : PState} :
    parse_lambda pt s = .ok t s1 ↔
      ∃ param rest body s5 rest6,
        s.toks.tail = Token.Var param :: Token.Dot :: Token.LBrace :: rest ∧
        pt ⟨rest, s.env ++ [param], s.freevar⟩ = .ok body s5 ∧
        s5.toks = Token.RBrace :: rest6 ∧
        t = Term.Lambda param body ∧
        s1 = ⟨rest6, s5.env.dropLast, s5.freevar⟩ := by
  simp only [parse_lambda, pbind_ok, expect_ident_ok_iff, expect_token_ok_iff]
  constructor
  · rintro ⟨param, s2, ⟨rest1, h1, rfl⟩, u2, s3, ⟨rest2, h2, rfl⟩, u3, s4, ⟨rest3, h3, rfl⟩,
      body, s5, h5, u6, s6, ⟨rest6, h6, rfl⟩, hfin⟩
    simp only [] at h1 h2 h3 h5 hfin
    cases hfin
    subst h2
    subst h3
    exact ⟨param, rest3, body, s5, rest6, h1, h5, h6, rfl, rfl⟩
  · rintro ⟨param, rest, body, s5, rest6, h1, h5, h6, rfl, rfl⟩
    exact ⟨param, ⟨Token.Dot :: Token.LBrace :: rest, s.env, s.freevar⟩,
      ⟨Token.Dot :: Token.LBrace :: rest, h1, rfl⟩,
      (), ⟨Token.LBrace :: rest, s.env, s.freevar⟩, ⟨Token.LBrace :: rest, rfl, rfl⟩,
      (), ⟨rest, s.env, s.freevar⟩, ⟨rest, rfl, rfl⟩,
      body, s5, h5,
      (), ⟨rest6, s5.env, s5.freevar⟩, ⟨rest6, h6, rfl⟩, rfl⟩

theorem parse_application_ok_iff {pt : PState → PResult Term} {s : PState} {t : Term}
    {s1 : PState} :
    parse_application pt s = .ok t s1 ↔
      ∃ lhs s2 rest2 rhs s3 rest3,
        pt ⟨s.toks.tail, s.env, s.freevar⟩ = .ok lhs s2 ∧
        s2.toks = Token.Delim :: rest2 ∧
        pt ⟨rest2, s2.env, s2.freevar⟩ = .ok rhs s3 ∧
        s3.toks = Token.Ket :: rest3 ∧
        t = Term.Application lhs rhs ∧
        s1 = ⟨rest3, s3.env, s3.freevar⟩ := by
  simp only [parse_application, pbind_ok]
  constructor
  · rintro ⟨lhs, s2, hlhs, h⟩
    rcases hd : s2.toks with _ | ⟨tk, rest2⟩
    · rw [hd] at h
      cases h
    · rw [hd] at h
      cases tk
      case Delim =>
        simp only [] at h
        obtain ⟨rhs, s3, hrhs, h2⟩ := pbind_ok.mp h
        rcases hk : s3.toks with _ | ⟨tk2, rest3⟩
        · rw [hk] at h2
          cases h2
        · rw [hk] at h2
          cases tk2
          case Ket =>
            cases h2
            exact ⟨lhs, s2, rest2, rhs, s3, rest3, hlhs, hd, hrhs, hk, rfl, rfl⟩
          all_goals cases h2
      all_goals cases h
  · rintro ⟨lhs, s2, rest2, rhs, s3, rest3, hlhs, hd, hrhs, hk, rfl, rfl⟩
    refine ⟨lhs, s2, hlhs, ?_⟩
    rw [hd]
    simp only []
    rw [pbind_ok]
    refine ⟨rhs, s3, hrhs, ?_⟩
    rw [hk]

theorem parse_term_zero {s : PState} : parse_term 0 s = .err "fuel exhausted" s := rfl

theorem parse_term_succ_var {fuel : Nat} {s : PState} {name : String} {rest : List Token}
    (h : s.toks = Token.Var name :: rest) : parse_term (fuel + 1) s = parse_var s := by
  simp only [parse_term, h]

theorem parse_term_succ_lambda {fuel : Nat} {s : PState} {rest : List Token}
    (h : s.toks = Token.Lambda :: rest) :
    parse_term (fuel + 1) s = parse_lambda (fun s1 => parse_term fuel s1) s := by
  simp only [parse_term, h]

theorem parse_term_succ_bra {fuel : Nat} {s : PState} {rest : List Token}
    (h : s.toks = Token.Bra :: rest) :
    parse_term (fuel + 1) s = parse_application (fun s1 => parse_term fuel s1) s := by
  simp only [parse_term, h]

theorem parse_term_mono : ∀ {fuel m : Nat} {s : PState} {t : Term} {s1 : PState},
    fuel ≤ m → parse_term fuel s = .ok t s1 → parse_term m s = .ok t s1 := by
  intro fuel
  induction fuel with
  | zero =>
    intro m s t s1 _ h
    rw [parse_term_zero] at h
    cases h
  | succ fuel ih =>
    intro m s t s1 hle h
    obtain ⟨m1, rfl⟩ : ∃ m1, m = m1 + 1 := ⟨m - 1, by omega⟩
    have hle1 : fuel ≤ m1 := by omega
    rcases hts : s.toks with _ | ⟨tk, rest⟩
    · simp only [parse_term, hts] at h
      cases h
    · cases tk
      case Var nm =>
        rw [parse_term_succ_var hts] at h
        rw [parse_term_succ_var hts]
        exact h
      case Lambda =>
        rw [parse_term_succ_lambda hts] at h
        rw [parse_term_succ_lambda hts, parse_lambda_ok_iff] at *
        obtain ⟨param, rest3, body, s5, rest6, h1, h5, h6, ht, hs⟩ := h
        exact ⟨param, rest3, body, s5, rest6, h1, ih hle1 h5, h6, ht, hs⟩
      case Bra =>
        rw [parse_term_succ_bra hts] at h
        rw [parse_term_succ_bra hts, parse_application_ok_iff] at *
        obtain ⟨lhs, s2, rest2, rhs, s3, rest3, hl, hd, hr, hk, ht, hs⟩ := h
        exact ⟨lhs, s2, rest2, rhs, s3, rest3, ih hle1 hl, hd, ih hle1 hr, hk, ht, hs⟩
      all_goals
        simp only [parse_term, hts] at h
        cases h

theorem parse_term_extend : ∀ {fuel : Nat} {ts : List Token} {env fv : List String}
    {extra : List Token} {t : Term} {s1 : PState},
    parse_term fuel ⟨ts, env, fv⟩ = .ok t s1 →
    parse_term fuel ⟨ts ++ extra, env, fv⟩ = .ok t ⟨s1.toks ++ extra, s1.env, s1.freevar⟩ := by
  intro fuel
  induction fuel with
  | zero =>
    intro ts env fv extra t s1 h
    rw [parse_term_zero] at h
    cases h
  | succ fuel ih =>
    intro ts env fv extra t s1 h
    rcases ts with _ | ⟨tk, rest⟩
    · simp only [parse_term] at h
      cases h
    · cases tk
      case Var nm =>
        simp only [List.cons_append]
        rw [parse_term_succ_var rfl] at h
        rw [parse_term_succ_var rfl]
        rw [parse_var_ok_iff] at h ⊢
        obtain ⟨name, rest2, htoks, hbr⟩ := h
        simp only [] at htoks
        obtain ⟨h1, rfl⟩ := List.cons.inj htoks
        cases Token.Var.inj h1
        rcases hbr with ⟨i, hr, rfl, rfl⟩ | ⟨hr, rfl, rfl⟩
        · exact ⟨nm, rest ++ extra, rfl, Or.inl ⟨i, hr, rfl, rfl⟩⟩
        · exact ⟨nm, rest ++ extra, rfl, Or.inr ⟨hr, rfl, rfl⟩⟩
      case Lambda =>
        simp only [List.cons_append]
        rw [parse_term_succ_lambda rfl] at h
        rw [parse_term_succ_lambda rfl]
        rw [parse_lambda_ok_iff] at h ⊢
        obtain ⟨param, rest3, body, s5, rest6, h1, h5, h6, rfl, rfl⟩ := h
        simp only [List.tail_cons] at h1
        subst h1
        refine ⟨param, rest3 ++ extra, body, ⟨s5.toks ++ extra, s5.env, s5.freevar⟩,
          rest6 ++ extra, by simp, ih h5, by rw [h6]; rfl, rfl, rfl⟩
      case Bra =>
        simp only [List.cons_append]
        rw [parse_term_succ_bra rfl] at h
        rw [parse_term_succ_bra rfl]
        rw [parse_application_ok_iff] at h ⊢
        obtain ⟨lhs, s2, rest2, rhs, s3, rest3, hl, hd, hr, hk, rfl, rfl⟩ := h
        simp only [List.tail_cons] at hl ⊢
        have hl2 : parse_term fuel ⟨rest ++ extra, env, fv⟩ =
            .ok lhs ⟨s2.toks ++ extra, s2.env, s2.freevar⟩ := ih hl
        have hr2 : parse_term fuel ⟨rest2 ++ extra, s2.env, s2.freevar⟩ =
            .ok rhs ⟨s3.toks ++ extra, s3.env, s3.freevar⟩ := ih hr
        refine ⟨lhs, ⟨s2.toks ++ extra, s2.env, s2.freevar⟩, rest2 ++ extra, rhs,
          ⟨s3.toks ++ extra, s3.env, s3.freevar⟩, rest3 ++ extra, hl2, by rw [hd]; rfl,
          hr2, by rw [hk]; rfl, rfl, rfl⟩
      all_goals
        simp only [parse_term] at h
        cases h

theorem wf_mono : ∀ {t : Term} {d n n1 : Nat}, wf t d n → n ≤ n1 → wf t d n1 := by
  intro t
  induction t with
  | Variable k =>
    intro d n n1 h hle
    simp only [wf] at h ⊢
    rcases h with h | h
    · exact Or.inl h
    · exact Or.inr ⟨h.1, Nat.lt_of_lt_of_le h.2 hle⟩
  | Lambda p b ihb =>
    intro d n n1 h hle
    exact ihb h hle
  | Application l r ihl ihr =>
    intro d n n1 h hle
    exact ⟨ihl h.1 hle, ihr h.2 hle⟩

theorem parse_term_inv : ∀ {fuel : Nat} {s : PState} {t : Term} {s1 : PState},
    parse_term fuel s = .ok t s1 →
    s1.env = s.env ∧ (∃ ext, s1.freevar = s.freevar ++ ext) ∧
      wf t s.env.length s1.freevar.length := by
  intro fuel
  induction fuel with
  | zero =>
    intro s t s1 h
    rw [parse_term_zero] at h
    cases h
  | succ fuel ih =>
    intro s t s1 h
    rcases hts : s.toks with _ | ⟨tk, rest⟩
    · simp only [parse_term, hts] at h
      cases h
    · cases tk
      case Var nm =>
        rw [parse_term_succ_var hts, parse_var_ok_iff] at h
        obtain ⟨name, rest2, htoks, hbr⟩ := h
        rcases hbr with ⟨i, hr, rfl, rfl⟩ | ⟨hr, rfl, rfl⟩
        · refine ⟨rfl, ⟨[], by simp⟩, ?_⟩
          simp only [wf, Int.ofNat_eq_natCast]
          left
          have hi := rposition_lt hr
          constructor <;> omega
        · refine ⟨rfl, ⟨[name], rfl⟩, ?_⟩
          simp only [wf, Int.ofNat_eq_natCast, List.length_append, List.length_singleton]
          right
          constructor <;> omega
      case Lambda =>
        rw [parse_term_succ_lambda hts, parse_lambda_ok_iff] at h
        obtain ⟨param, rest3, body, s5, rest6, h1, h5, h6, rfl, rfl⟩ := h
        obtain ⟨henv, ⟨ext, hfv⟩, hwf⟩ := ih h5
        simp only [] at henv hfv hwf
        refine ⟨?_, ⟨ext, hfv⟩, ?_⟩
        · simp [henv]
        · simp only [wf]
          have : (s.env ++ [param]).length = s.env.length + 1 := by simp
          rw [this] at hwf
          exact hwf
      case Bra =>
        rw [parse_term_succ_bra hts, parse_application_ok_iff] at h
        obtain ⟨lhs, s2, rest2, rhs, s3, rest3, hl, hd, hr, hk, rfl, rfl⟩ := h
        obtain ⟨henv2, ⟨e1, hfv2⟩, hwf2⟩ := ih hl
        obtain ⟨henv3, ⟨e2, hfv3⟩, hwf3⟩ := ih hr
        simp only [] at henv2 hfv2 hwf2
        refine ⟨by simp [henv3, henv2], ⟨e1 ++ e2, by rw [hfv3, hfv2, List.append_assoc]⟩, ?_⟩
        simp only [wf]
        constructor
        · refine wf_mono hwf2 ?_
          rw [hfv3]
          simp
        · rw [henv2] at hwf3
          exact hwf3
      all_goals
        simp only [parse_term, hts] at h
        cases h

/-! Printer lemmas. -/

theorem print_term_total : ∀ {t : Term} {env free : List String},
    wf t env.length free.length → ∃ out, print_term env free t = some out := by
  intro t
  induction t with
  | Variable k =>
    intro env free h
    simp only [wf] at h
    simp only [print_term, print_var]
    rcases h with ⟨hpos, hle⟩ | ⟨hneg, hlt⟩
    · rw [if_neg (by omega), if_pos hle]
      have hb : env.length - k.toNat < env.length := by omega
      exact ⟨env.get ⟨_, hb⟩, List.get?_eq_get hb⟩
    · rw [if_pos hneg]
      exact ⟨"$" ++ free.get ⟨_, hlt⟩, by rw [List.get?_eq_get hlt]; rfl⟩
  | Lambda p b ihb =>
    intro env free h
    simp only [wf] at h
    have h2 : wf b (env ++ [p]).length free.length := by simpa using h
    obtain ⟨bs, hbs⟩ := ihb h2
    exact ⟨_, by simp only [print_term, hbs, Option.map_some']; rfl⟩
  | Application l r ihl ihr =>
    intro env free h
    obtain ⟨ls, hls⟩ := ihl h.1
    obtain ⟨rs, hrs⟩ := ihr h.2
    exact ⟨_, by simp only [print_term, hls, hrs, Option.some_bind, Option.map_some']; rfl⟩

theorem parse_ok_iff {tokens : List Token} {t : Term} {fv : List String} {s1 : PState} :
    parse tokens = .ok (t, fv) s1 ↔
      parse_term (tokens.length + 1) ⟨tokens, [], []⟩ = .ok t s1 ∧ fv = s1.freevar := by
  unfold parse
  rcases hp : parse_term (tokens.length + 1) ⟨tokens, [], []⟩ with ⟨t2, s2⟩ | ⟨m, s2⟩
  · simp only []
    constructor
    · intro h
      cases h
      exact ⟨rfl, rfl⟩
    · rintro ⟨h1, rfl⟩
      cases h1
      rfl
  · simp only []
    constructor
    · intro h
      cases h
    · rintro ⟨h1, rfl⟩
      cases h1

/-! Claim theorems. -/

/-- C1, counterexample: parsing `<x|x>` with an empty binder stack yields a
free-variable table of length 2 (not 1), and the two Variable nodes carry the
distinct indices -1 and -2, refuting the claimed free-variable slot reuse. -/
theorem c1_counterexample :
    parse [Token.Bra, Token.Var "x", Token.Delim, Token.Var "x", Token.Ket] =
      .ok (Term.Application (Term.Variable (-1)) (Term.Variable (-2)), ["x", "x"])
        ⟨[], [], ["x", "x"]⟩ ∧
    (["x", "x"] : List String).length ≠ 1 ∧ (-1 : Int) ≠ -2 :=
  ⟨by decide, by decide, by decide⟩

/-- C1, amended: parse_var never looks the identifier up in the free-variable
table: every free occurrence appends a fresh slot unconditionally, so parsing
`<x|x>` with an empty binder stack produces the table ["x", "x"] of length 2
and the Variable nodes -1 and -2. -/
theorem c1_amended_free_append :
    (∀ (s : PState) (name : String) (rest : List Token),
      s.toks = Token.Var name :: rest →
      rposition (fun nm => nm == name) s.env = none →
      parse_var s = .ok (Term.Variable (-(Int.ofNat (s.freevar.length + 1))))
        ⟨rest, s.env, s.freevar ++ [name]⟩) ∧
    parse [Token.Bra, Token.Var "x", Token.Delim, Token.Var "x", Token.Ket] =
      .ok (Term.Application (Term.Variable (-1)) (Term.Variable (-2)), ["x", "x"])
        ⟨[], [], ["x", "x"]⟩ := by
  constructor
  · intro s name rest htoks hr
    rw [parse_var_ok_iff]
    exact ⟨name, rest, htoks, Or.inr ⟨hr, rfl, rfl⟩⟩
  · decide

/-- C1, witness: the amended statement at a concrete state whose table
already contains "x": a second slot is appended anyway. -/
theorem c1_witness :
    parse_var ⟨[Token.Var "x"], [], ["x"]⟩ =
      .ok (Term.Variable (-(Int.ofNat (["x"].length + 1)))) ⟨[], [], ["x", "x"]⟩ :=
  c1_amended_free_append.1 ⟨[Token.Var "x"], [], ["x"]⟩ "x" [] rfl (by decide)

/-- C2, counterexample: the fully parenthesized right side of an application
makes the pipeline print `λx. λy. x(y)`, never the claimed `λx. λy. xy`. -/
theorem c2_counterexample :
    format (Term.Lambda "x" (Term.Lambda "y"
        (Term.Application (Term.Variable 2) (Term.Variable 1)))) [] ≠
      some "λx. λy. xy" := by decide

/-- C2, amended: the input tokenizes and parses exactly as claimed, but the
printed form is "λx. λy. x(y)" (the application right side is always
parenthesized). -/
theorem c2_amended_pipeline :
    tokenize "\\x.\x7b\\y.\x7b<x|y>\x7d\x7d" =
      .ok [Token.Lambda, Token.Var "x", Token.Dot, Token.LBrace, Token.Lambda,
        Token.Var "y", Token.Dot, Token.LBrace, Token.Bra, Token.Var "x",
        Token.Delim, Token.Var "y", Token.Ket, Token.RBrace, Token.RBrace] ∧
    parse [Token.Lambda, Token.Var "x", Token.Dot, Token.LBrace, Token.Lambda,
        Token.Var "y", Token.Dot, Token.LBrace, Token.Bra, Token.Var "x",
        Token.Delim, Token.Var "y", Token.Ket, Token.RBrace, Token.RBrace] =
      .ok (Term.Lambda "x" (Term.Lambda "y"
          (Term.Application (Term.Variable 2) (Term.Variable 1))), [])
        ⟨[], [], []⟩ ∧
    format (Term.Lambda "x" (Term.Lambda "y"
        (Term.Application (Term.Variable 2) (Term.Variable 1)))) [] =
      some "λx. λy. x(y)" := by
  refine ⟨?_, by decide, by decide⟩
  simp [tokenize, tokenize_chars, consume_token, skipWs, takeIdent,
    consume_identifier, ident_start, ident_body, isWhitespaceRust]

/-- C3, counterexample: the input "a\x00@" contains '@', which is neither
whitespace, punctuation, nor an identifier character, yet tokenize succeeds,
because the NUL before it stops tokenization. -/
theorem c3_counterexample :
    ('@' ∈ "a\x00@".data ∧ isWhitespaceRust '@' = false ∧ punct_char '@' = false ∧
      ident_body '@' = false) ∧
    tokenize "a\x00@" = .ok [Token.Var "a"] := by
  refine ⟨by decide, ?_⟩
  simp [tokenize, tokenize_chars, consume_token, skipWs, takeIdent,
    consume_identifier, ident_start, ident_body, isWhitespaceRust]

/-- C3, amended: tokenize fails with a lexical error on every input that
contains a character that is not whitespace, not one of the seven punctuation
marks, not an identifier character and not NUL, provided no NUL precedes it;
in particular tokenize("@") fails with the error '@'. -/
theorem c3_amended_lex_reject :
    (∀ (xs : List Char) (z : Char) (ys : List Char),
      '\x00' ∉ xs → isWhitespaceRust z = false → punct_char z = false →
      ident_body z = false → z ≠ '\x00' →
      ∃ e, tokenize (String.mk (xs ++ z :: ys)) = .error e) ∧
    tokenize "@" = .error '@' := by
  constructor
  · intro xs z ys hnul hz1 hzp hz2 hz0
    exact tokenize_chars_bad hnul ys hz1 hzp hz2 hz0
  · simp [tokenize, tokenize_chars, consume_token, skipWs, takeIdent,
      consume_identifier, ident_start, ident_body, isWhitespaceRust]

/-- C3, witness: the amended statement applied to the one-character input
"@". -/
theorem c3_witness :
    ∃ e, tokenize (String.mk ([] ++ '@' :: [])) = .error e :=
  c3_amended_lex_reject.1 [] '@' [] (by decide) (by decide) (by decide)
    (by decide) (by decide)

/-- C4, counterexample: parsing `\x.\x7b\x7d` fails inside the lambda body
and the propagated panic state still holds "x" on the binder stack: the pop
after the body is never executed on failure. -/
theorem c4_counterexample :
    parse [Token.Lambda, Token.Var "x", Token.Dot, Token.LBrace, Token.RBrace] =
      .err "Unexpected token" ⟨[Token.RBrace], ["x"], []⟩ ∧
    (["x"] : List String) ≠ [] :=
  ⟨by decide, by decide⟩

/-- C4, amended: every successful parse leaves the binder stack exactly as it
found it (in particular the name pushed for a lambda body is popped), but on
a failing body or closing delimiter the whole parse aborts with the pushed
name still on the stack, as the concrete failing input shows. -/
theorem c4_amended_env_on_success :
    (∀ (fuel : Nat) (s : PState) (t : Term) (s1 : PState),
      parse_term fuel s = .ok t s1 → s1.env = s.env) ∧
    parse [Token.Lambda, Token.Var "x", Token.Dot, Token.LBrace, Token.RBrace] =
      .err "Unexpected token" ⟨[Token.RBrace], ["x"], []⟩ :=
  ⟨fun _ _ _ _ h => (parse_term_inv h).1, by decide⟩

/-- C4, witness: the success part of the amended statement at the concrete
parse of `\x.\x7b x \x7d`, whose final binder stack is again empty. -/
theorem c4_witness :
    (⟨[], [], []⟩ : PState).env =
      (⟨[Token.Lambda, Token.Var "x", Token.Dot, Token.LBrace, Token.Var "x",
        Token.RBrace], [], []⟩ : PState).env :=
  c4_amended_env_on_success.1 7
    ⟨[Token.Lambda, Token.Var "x", Token.Dot, Token.LBrace, Token.Var "x",
      Token.RBrace], [], []⟩
    (Term.Lambda "x" (Term.Variable 1)) ⟨[], [], []⟩ (by decide)

/-- C5: every (term, free-variable table) pair produced by a successful parse
is printable: format finds every positive index within the rebuilt binder
stack and every negative index within the table, so no lookup is out of
bounds and a string is returned. -/
theorem c5_format_total_on_parse :
    ∀ (tokens : List Token) (t : Term) (fv : List String) (s1 : PState),
      parse tokens = .ok (t, fv) s1 → ∃ out, format t fv = some out := by
  intro tokens t fv s1 h
  obtain ⟨hp, rfl⟩ := parse_ok_iff.mp h
  obtain ⟨henv, hfv, hwf⟩ := parse_term_inv hp
  exact print_term_total hwf

/-- C5, witness: the theorem applied to the parse of the single token `x`. -/
theorem c5_witness :
    ∃ out, format (Term.Variable (-1)) ["x"] = some out :=
  c5_format_total_on_parse [Token.Var "x"] (Term.Variable (-1)) ["x"]
    ⟨[], [], ["x"]⟩ (by decide)

/-- C6: name resolution picks the topmost (innermost) matching binder: if the
stack holds the name at position i and nowhere above it, the stored depth is
the 1-indexed distance env.length - i from the top; in particular
`\x.\x7b\x.\x7b x \x7d\x7d` resolves the inner x to depth 1, never 2. -/
theorem c6_shadowing :
    (∀ (s : PState) (name : String) (rest : List Token) (i : Nat),
      s.toks = Token.Var name :: rest →
      s.env.get? i = some name →
      (∀ j b, i < j → s.env.get? j = some b → b ≠ name) →
      parse_var s = .ok (Term.Variable (Int.ofNat (s.env.length - i)))
        ⟨rest, s.env, s.freevar⟩) ∧
    parse [Token.Lambda, Token.Var "x", Token.Dot, Token.LBrace,
        Token.Lambda, Token.Var "x", Token.Dot, Token.LBrace, Token.Var "x",
        Token.RBrace, Token.RBrace] =
      .ok (Term.Lambda "x" (Term.Lambda "x" (Term.Variable 1)), []) ⟨[], [], []⟩ := by
  constructor
  · intro s name rest i htoks hget htop
    have hr : rposition (fun nm => nm == name) s.env = some i := by
      refine rposition_eq_topmost hget (by simp) ?_
      intro j b hj hget2
      rw [beq_eq_false_iff_ne]
      exact htop j b hj hget2
    rw [parse_var_ok_iff]
    exact ⟨name, rest, htoks, Or.inl ⟨i, hr, rfl, rfl⟩⟩
  · decide

/-- C6, witness: the general statement at the stack ["x", "x"]: the topmost
match is at index 1, so the resolved depth is 2 - 1 = 1. -/
theorem c6_witness :
    parse_var ⟨[Token.Var "x"], ["x", "x"], []⟩ =
      .ok (Term.Variable (Int.ofNat ((["x", "x"] : List String).length - 1)))
        ⟨[], ["x", "x"], []⟩ :=
  c6_shadowing.1 ⟨[Token.Var "x"], ["x", "x"], []⟩ "x" [] 1 rfl (by decide)
    (by
      intro j b hj hget
      rcases j with _ | _ | j
      · omega
      · omega
      · simp [List.get?] at hget)

/-- C7: parse_term fails with a parse error when the token stream is
exhausted or when the next token opens no production, and the token sequence
of "<x|y" (missing the closing '>') fails with the missing-delimiter
message and no term. -/
theorem c7_parse_rejects :
    (∀ (fuel : Nat) (env fv : List String),
      parse_term (fuel + 1) ⟨[], env, fv⟩ = .err "Unexpected token" ⟨[], env, fv⟩) ∧
    (∀ (fuel : Nat) (s : PState) (tk : Token) (rest : List Token),
      s.toks = tk :: rest → (∀ nm, tk ≠ Token.Var nm) → tk ≠ Token.Lambda →
      tk ≠ Token.Bra →
      parse_term (fuel + 1) s = .err "Unexpected token" s) ∧
    parse [Token.Bra, Token.Var "x", Token.Delim, Token.Var "y"] =
      .err "Expected '>' after application" ⟨[], [], ["x", "y"]⟩ := by
  refine ⟨fun fuel env fv => rfl, ?_, by decide⟩
  intro fuel s tk rest htoks hv hl hb
  cases tk
  case Var nm => exact absurd rfl (hv nm)
  case Lambda => exact absurd rfl hl
  case Bra => exact absurd rfl hb
  all_goals simp only [parse_term, htoks]

/-- C7, witness: the rejection statements at an empty stream and at a stream
starting with '.'. -/
theorem c7_witness :
    parse_term 1 ⟨[], [], []⟩ = .err "Unexpected token" ⟨[], [], []⟩ ∧
    parse_term 1 ⟨[Token.Dot], [], []⟩ =
      .err "Unexpected token" ⟨[Token.Dot], [], []⟩ :=
  ⟨c7_parse_rejects.1 0 [] [],
   c7_parse_rejects.2.1 0 ⟨[Token.Dot], [], []⟩ Token.Dot [] rfl
     (by intro nm h; cases h) (by decide) (by decide)⟩

/-- C8: the printer wraps a lambda body (and an application left side) in
parentheses iff its rendered byte length exceeds MAXLEN = 10 and it is not
already enclosed in parentheses; an application right side is wrapped
whenever it is not already enclosed, regardless of length. -/
theorem c8_paren_policy :
    (∀ (env free : List String) (param : String) (body : Term) (out : String),
      print_term env free (Term.Lambda param body) = some out →
      ∃ b, print_term (env ++ [param]) free body = some b ∧
        out = "λ" ++ param ++ ". " ++
          (if rustLen b > MAXLEN ∧ ¬(starts_paren b = true ∧ ends_paren b = true)
           then "(" ++ b ++ ")" else b)) ∧
    (∀ (env free : List String) (lhs rhs : Term) (out : String),
      print_term env free (Term.Application lhs rhs) = some out →
      ∃ ls rs, print_term env free lhs = some ls ∧ print_term env free rhs = some rs ∧
        out = (if rustLen ls > MAXLEN ∧ ¬(starts_paren ls = true ∧ ends_paren ls = true)
               then "(" ++ ls ++ ")" else ls) ++
              (if starts_paren rs = true ∧ ends_paren rs = true then rs
               else "(" ++ rs ++ ")")) := by
  have haddp : ∀ b : String, (if rustLen b > MAXLEN then addparen b else b) =
      (if rustLen b > MAXLEN ∧ ¬(starts_paren b = true ∧ ends_paren b = true)
       then "(" ++ b ++ ")" else b) := by
    intro b
    rcases hs : starts_paren b <;> rcases he : ends_paren b <;>
      by_cases h1 : rustLen b > MAXLEN <;>
        simp [addparen, hs, he, h1]
  constructor
  · intro env free param body out h
    simp only [print_term] at h
    obtain ⟨b, hb, rfl⟩ := Option.map_eq_some'.mp h
    exact ⟨b, hb, by rw [haddp]⟩
  · intro env free lhs rhs out h
    simp only [print_term] at h
    obtain ⟨ls, hls, h2⟩ := Option.bind_eq_some.mp h
    obtain ⟨rs, hrs, rfl⟩ := Option.map_eq_some'.mp h2
    refine ⟨ls, rs, hls, hrs, ?_⟩
    rw [haddp]
    congr 1
    rcases hs : starts_paren rs <;> rcases he : ends_paren rs <;>
      simp [addparen, hs, he]

/-- C8, witness: the policy applied to a printed lambda (short unwrapped
body) and a printed application (short but wrapped right side). -/
theorem c8_witness :
    (∃ b, print_term ([] ++ ["x"]) [] (Term.Variable 1) = some b ∧
      "λx. x" = "λ" ++ "x" ++ ". " ++
        (if rustLen b > MAXLEN ∧ ¬(starts_paren b = true ∧ ends_paren b = true)
         then "(" ++ b ++ ")" else b)) ∧
    (∃ ls rs, print_term [] ["f", "a"] (Term.Variable (-1)) = some ls ∧
      print_term [] ["f", "a"] (Term.Variable (-2)) = some rs ∧
      "$f($a)" =
        (if rustLen ls > MAXLEN ∧ ¬(starts_paren ls = true ∧ ends_paren ls = true)
         then "(" ++ ls ++ ")" else ls) ++
        (if starts_paren rs = true ∧ ends_paren rs = true then rs
         else "(" ++ rs ++ ")")) :=
  ⟨c8_paren_policy.1 [] [] "x" (Term.Variable 1) "λx. x" (by decide),
   c8_paren_policy.2 [] ["f", "a"] (Term.Variable (-1)) (Term.Variable (-2))
     "$f($a)" (by decide)⟩

/-- C9: parse never requires the stream to be exhausted: appending arbitrary
trailing tokens to a successfully parsed sequence leaves the parsed term and
free-variable table unchanged, and the tokens of "x y" parse to just the
variable for x. -/
theorem c9_trailing_tokens :
    (∀ (tokens extra : List Token) (t : Term) (fv : List String) (s1 : PState),
      parse tokens = .ok (t, fv) s1 →
      ∃ s2, parse (tokens ++ extra) = .ok (t, fv) s2) ∧
    parse [Token.Var "x", Token.Var "y"] =
      .ok (Term.Variable (-1), ["x"]) ⟨[Token.Var "y"], [], ["x"]⟩ := by
  constructor
  · intro tokens extra t fv s1 h
    obtain ⟨hp, rfl⟩ := parse_ok_iff.mp h
    have hm : parse_term ((tokens ++ extra).length + 1) ⟨tokens, [], []⟩ = .ok t s1 :=
      parse_term_mono (by rw [List.length_append]; omega) hp
    have he : parse_term ((tokens ++ extra).length + 1) ⟨tokens ++ extra, [], []⟩ =
        .ok t ⟨s1.toks ++ extra, s1.env, s1.freevar⟩ := parse_term_extend hm
    exact ⟨⟨s1.toks ++ extra, s1.env, s1.freevar⟩, parse_ok_iff.mpr ⟨he, rfl⟩⟩
  · decide

/-- C9, witness: the theorem applied to the tokens of "x" with the trailing
token of "y". -/
theorem c9_witness :
    ∃ s2, parse ([Token.Var "x"] ++ [Token.Var "y"]) =
      .ok (Term.Variable (-1), ["x"]) s2 :=
  c9_trailing_tokens.1 [Token.Var "x"] [Token.Var "y"] (Term.Variable (-1))
    ["x"] ⟨[], [], ["x"]⟩ (by decide)

/-- C10: tokenize treats NUL as end of input: for every input, the tokens are
exactly those of the prefix before the first NUL, without error; in
particular tokenize("a\x00b") = ok [Var "a"]. -/
theorem c10_nul_is_eof :
    (∀ (xs ys : List Char), '\x00' ∉ xs →
      tokenize (String.mk (xs ++ '\x00' :: ys)) = tokenize (String.mk xs)) ∧
    tokenize "a\x00b" = .ok [Token.Var "a"] := by
  constructor
  · intro xs ys hnul
    exact tokenize_chars_nul hnul ys
  · simp [tokenize, tokenize_chars, consume_token, skipWs, takeIdent,
      consume_identifier, ident_start, ident_body, isWhitespaceRust]

/-- C10, witness: the theorem applied to "a" before the NUL and "b" after. -/
theorem c10_witness :
    tokenize (String.mk (['a'] ++ '\x00' :: ['b'])) = tokenize (String.mk ['a']) :=
  c10_nul_is_eof.1 ['a'] ['b'] (by decide)

end LambdaRs
